import Mathlib

/-!
Verification of the ScholarX hybrid retrieval, scoring, re-ranking and
deduplication core against its specification.

The Python source is shallowly embedded as follows:
* text (`str`) is modelled as `List Char`; Python's `str.lower`, `str.split`,
  `str.strip`, and `re.sub` punctuation stripping are modelled character by
  character over the ASCII range they actually touch in this code base;
* floating point scores are modelled as real numbers (`ℝ`), rational where the
  computation is purely rational (the deduplication similarity ratio, `ℚ`);
* Python dictionaries used as metadata records become structures or
  association lists; `dict.get` defaults become `Option.getD`;
* the one impure input, `datetime.utcnow().year`, becomes an explicit
  `currentYear` argument;
* `logger.warning` diagnostics are modelled as an explicit `Bool` component of
  the function's result where a claim mentions them.
-/

namespace ScholarX

/-- ASCII whitespace, the characters relevant to `str.split()` in this code
base (space, tab, newline, carriage return). -/
def isWS (c : Char) : Bool :=
  c.toNat = 32 || c.toNat = 9 || c.toNat = 10 || c.toNat = 13

/-- Model of Python `str.lower` on a single character (ASCII range). -/
def lowerChar (c : Char) : Char :=
  if 65 ≤ c.toNat ∧ c.toNat ≤ 90 then Char.ofNat (c.toNat + 32) else c

/-- Model of Python `str.lower`. -/
def lowerStr (s : List Char) : List Char := s.map lowerChar

/-- Model of Python `str.split()` (split on whitespace runs, dropping empty
pieces).  Defined by structural recursion with one character of lookahead so
that the kernel can evaluate it. -/
def splitWS : List Char → List (List Char)
  | [] => []
  | c :: cs =>
    if isWS c then splitWS cs
    else
      match cs, splitWS cs with
      | [], _ => [[c]]
      | c' :: _, r =>
        if isWS c' then [c] :: r
        else
          match r with
          | [] => [[c]]
          | w :: ws => (c :: w) :: ws

/-- Model of `" ".join`. -/
def joinSp : List (List Char) → List Char
  | [] => []
  | [w] => w
  | w :: ws => w ++ ' ' :: joinSp ws

/-- Model of Python `str.strip()`. -/
def stripStr (s : List Char) : List Char :=
  ((s.dropWhile fun c => isWS c).reverse.dropWhile fun c => isWS c).reverse

/-- Python regex `\w` over the ASCII range: letters, digits, underscore. -/
def isWordChar (c : Char) : Bool := c.isAlphanum || c = '_'

/-- Model of `re.sub(r'[^\w\s]', ' ', s)`: every character that is neither a
word character nor whitespace becomes a space. -/
def stripPunct (s : List Char) : List Char :=
  s.map fun c => if isWordChar c || isWS c then c else ' '

/-- The token set a string contributes to `simple_keyword_match`: lowercase,
strip punctuation, split on whitespace, drop tokens of length `≤ 2`. -/
def tokensOf (s : List Char) : Finset (List Char) :=
  ((splitWS (stripPunct (lowerStr s))).filter fun w => 2 < w.length).toFinset

/-- `src/rag/hybrid_search.py`, `simple_keyword_match`: Jaccard similarity and
precision of the two token sets, blended `0.6/0.4` and capped at 1. -/
noncomputable def simple_keyword_match (query text : List Char) : ℝ :=
  if query = [] ∨ text = [] then 0
  else
    let query_words := tokensOf query
    let text_words := tokensOf text
    if query_words = ∅ then 0
    else
      let intersection := query_words ∩ text_words
      let union := query_words ∪ text_words
      if union = ∅ then 0
      else
        let jaccard_score : ℝ := (intersection.card : ℝ) / (union.card : ℝ)
        let precision_score : ℝ := (intersection.card : ℝ) / (query_words.card : ℝ)
        min 1.0 (0.6 * jaccard_score + 0.4 * precision_score)

/-- The metadata record consumed by `calculate_quality_score`
(`src/rag/quality_scorer.py`).  A missing dictionary key is `none` / an empty
string / an empty list, matching the `.get` defaults in the source. -/
structure PaperMetadata where
  citation_count : Option Nat
  year : Option Int
  pdf_url : List Char
  source : List Char
  abstract : List Char
  authors : List (List Char)
  title : List Char

/-- The empty metadata dictionary. -/
def emptyMetadata : PaperMetadata := ⟨none, none, [], [], [], [], []⟩

/-- `src/rag/quality_scorer.py`, `calculate_quality_score`.  The impure
`datetime.utcnow().year` is the explicit `currentYear` argument.  Python's
`if year:` is falsy both for a missing year and for year `0`, hence the
`y ≠ 0` test. -/
noncomputable def calculate_quality_score (m : PaperMetadata) (currentYear : Int) : ℝ :=
  let score0 : ℝ := 0
  let citation_count := m.citation_count.getD 0
  let score1 :=
    if 0 < citation_count then
      score0 + min 1.0 (Real.log (1 + (citation_count : ℝ)) / Real.log 1000) * 0.3
    else score0
  let score2 :=
    match m.year with
    | some y =>
      if y ≠ 0 then
        let age := currentYear - y
        let recency_score : ℝ :=
          if age ≤ 1 then 1.0
          else if age ≤ 5 then 0.8
          else if age ≤ 10 then 0.6
          else max 0.3 (1.0 - (age : ℝ) / 50)
        score1 + recency_score * 0.2
      else score1
    | none => score1
  let score3 := if m.pdf_url ≠ [] then score2 + 0.15 else score2
  let score4 :=
    if m.source = "arxiv".data then score3 + 0.1
    else if m.source = "semantic_scholar".data then score3 + 0.1
    else score3
  let score5 := if m.abstract ≠ [] ∧ 200 < m.abstract.length then score4 + 0.1 else score4
  let score6 := if 2 ≤ m.authors.length then score5 + 0.05 else score5
  let titleWords := (splitWS m.title).length
  let score7 := if 5 ≤ titleWords ∧ titleWords ≤ 20 then score6 + 0.05 else score6
  min 1.0 score7

/-- Modelled from the spec (§4.3, claim C6): the quality score as the weighted
sum of the seven sub-scores, clamped to `[0,1]`, with the recency sub-score
zero exactly when the year is absent. -/
noncomputable def quality_score_spec (m : PaperMetadata) (currentYear : Int) : ℝ :=
  let citation_score : ℝ :=
    match m.citation_count with
    | some c => if c = 0 then 0 else min 1.0 (Real.log (1 + (c : ℝ)) / Real.log 1000)
    | none => 0
  let recency_score : ℝ :=
    match m.year with
    | some y =>
      let age := currentYear - y
      if age ≤ 1 then 1.0
      else if age ≤ 5 then 0.8
      else if age ≤ 10 then 0.6
      else max 0.3 (1.0 - (age : ℝ) / 50)
    | none => 0
  let open_access_score : ℝ := if m.pdf_url ≠ [] then 1 else 0
  let source_score : ℝ :=
    if m.source = "arxiv".data ∨ m.source = "semantic_scholar".data then 1 else 0
  let abstract_score : ℝ := if 200 < m.abstract.length then 1 else 0
  let author_score : ℝ := if 2 ≤ m.authors.length then 1 else 0
  let title_score : ℝ :=
    if 5 ≤ (splitWS m.title).length ∧ (splitWS m.title).length ≤ 20 then 1 else 0
  max 0 (min 1 (0.3 * citation_score + 0.2 * recency_score + 0.15 * open_access_score
    + 0.1 * source_score + 0.1 * abstract_score + 0.05 * author_score
    + 0.05 * title_score))

/-- Modelled from the spec, amended: identical to `quality_score_spec` except
that the recency sub-score is zero when the year is absent or zero, matching
Python truthiness. -/
noncomputable def quality_score_spec_amended (m : PaperMetadata) (currentYear : Int) : ℝ :=
  let citation_score : ℝ :=
    match m.citation_count with
    | some c => if c = 0 then 0 else min 1.0 (Real.log (1 + (c : ℝ)) / Real.log 1000)
    | none => 0
  let recency_score : ℝ :=
    match m.year with
    | some y =>
      if y = 0 then 0
      else
        let age := currentYear - y
        if age ≤ 1 then 1.0
        else if age ≤ 5 then 0.8
        else if age ≤ 10 then 0.6
        else max 0.3 (1.0 - (age : ℝ) / 50)
    | none => 0
  let open_access_score : ℝ := if m.pdf_url ≠ [] then 1 else 0
  let source_score : ℝ :=
    if m.source = "arxiv".data ∨ m.source = "semantic_scholar".data then 1 else 0
  let abstract_score : ℝ := if 200 < m.abstract.length then 1 else 0
  let author_score : ℝ := if 2 ≤ m.authors.length then 1 else 0
  let title_score : ℝ :=
    if 5 ≤ (splitWS m.title).length ∧ (splitWS m.title).length ≤ 20 then 1 else 0
  max 0 (min 1 (0.3 * citation_score + 0.2 * recency_score + 0.15 * open_access_score
    + 0.1 * source_score + 0.1 * abstract_score + 0.05 * author_score
    + 0.05 * title_score))

/-- A retrieval result (`vectorstore/query.py`, `QueryResult`).  `metadata` is
the score-carrying part of the Python metadata dictionary, as an insertion
ordered association list. -/
structure QueryResult where
  chunk_id : List Char
  paper_id : List Char
  chunk_index : Nat
  text : List Char
  score : ℝ
  metadata : List (List Char × ℝ)

/-- Python dictionary update `{**m, k: v}` restricted to one key: replace the
value in place if the key is present, else append the pair. -/
def dictInsert (k : List Char) (v : ℝ) : List (List Char × ℝ) → List (List Char × ℝ)
  | [] => [(k, v)]
  | (k', v') :: rest => if k' = k then (k, v) :: rest else (k', v') :: dictInsert k v rest

/-- Dictionary lookup on the association-list model. -/
def dictLookup (k : List Char) : List (List Char × ℝ) → Option ℝ
  | [] => none
  | (k', v') :: rest => if k' = k then some v' else dictLookup k rest

/-- The weight normalisation at the top of `hybrid_search`
(`src/rag/hybrid_search.py`): divide by the sum, or fall back to semantic-only
weights `(1, 0)` when the sum is zero.  The `Bool` component records the
`logger.warning` diagnostic emitted on the fallback path. -/
noncomputable def combineWeights (semantic_weight keyword_weight : ℝ) : ℝ × ℝ × Bool :=
  let total_weight := semantic_weight + keyword_weight
  if total_weight = 0 then (1.0, 0.0, true)
  else (semantic_weight / total_weight, keyword_weight / total_weight, false)

/-- The combined score `hybrid_search` assigns to one candidate with raw
semantic score `sem` and keyword score `key`. -/
noncomputable def combinedScore (semantic_weight keyword_weight sem key : ℝ) : ℝ :=
  (combineWeights semantic_weight keyword_weight).1 * sem +
    (combineWeights semantic_weight keyword_weight).2.1 * key

/-- The per-candidate body of the `hybrid_search` loop: compute the keyword
score, blend with the (already normalised) weights, and rewrite the score
metadata.  `nsw`/`nkw` are the normalised semantic/keyword weights. -/
noncomputable def mkHybridResult (nsw nkw : ℝ) (query : List Char) (r : QueryResult) :
    QueryResult :=
  let keyword_score := simple_keyword_match query r.text
  let combined_score := nsw * r.score + nkw * keyword_score
  { r with
    score := combined_score,
    metadata := dictInsert "combined_score".data combined_score
      (dictInsert "keyword_score".data keyword_score
        (dictInsert "semantic_score".data r.score r.metadata)) }

/-- Stable descending sort by score, the model of Python's stable
`list.sort(key=lambda x: x.score, reverse=True)` (a stable sort for a total
preorder is unique, so insertion sort gives the same list as Timsort). -/
noncomputable def sortByScoreDesc (l : List QueryResult) : List QueryResult :=
  l.insertionSort fun a b => b.score ≤ a.score

/-- `src/rag/hybrid_search.py`, `hybrid_search`, from the point where the
semantic candidates are in hand (embedding and vector search are external
collaborators, so the semantic result list is an argument here). -/
noncomputable def hybrid_search (query : List Char) (semantic_results : List QueryResult)
    (top_k : Nat) (semantic_weight keyword_weight : ℝ) : List QueryResult :=
  let w := combineWeights semantic_weight keyword_weight
  let hybrid_results := semantic_results.map (mkHybridResult w.1 w.2.1 query)
  (sortByScoreDesc hybrid_results).take top_k

/-- The scoring loop of `rerank_results` (`src/rag/reranker.py`): walk the
input in order, tracking the set of already-seen paper ids, and rewrite each
result's score and score metadata. -/
noncomputable def rerankPass (pm : List Char → Option PaperMetadata) (currentYear : Int)
    (diversity_weight : ℝ) : List QueryResult → List (List Char) → List QueryResult
  | [], _ => []
  | r :: rest, seen_papers =>
    let base_score := r.score
    let quality_score :=
      calculate_quality_score ((pm r.paper_id).getD emptyMetadata) currentYear
    let diversity_bonus : ℝ := if r.paper_id ∈ seen_papers then 0 else 0.1
    let final_score := 0.6 * base_score + 0.3 * quality_score
      + diversity_weight * diversity_bonus
    { r with
      score := final_score,
      metadata := dictInsert "final_score".data final_score
        (dictInsert "quality_score".data quality_score
          (dictInsert "base_score".data base_score r.metadata)) } ::
      rerankPass pm currentYear diversity_weight rest (r.paper_id :: seen_papers)

/-- `src/rag/reranker.py`, `rerank_results`: score every result, then sort
stably by the new score, descending. -/
noncomputable def rerank_results (results : List QueryResult)
    (pm : List Char → Option PaperMetadata) (currentYear : Int)
    (diversity_weight : ℝ) : List QueryResult :=
  if results.isEmpty then results
  else sortByScoreDesc (rerankPass pm currentYear diversity_weight results [])

/-- The loop of `ensure_diversity` (`src/rag/reranker.py`): `paper_counts` is
the counting dictionary (total function with default 0). -/
def ensureDiversityAux (max_per_paper : Nat) :
    List QueryResult → (List Char → Nat) → List QueryResult
  | [], _ => []
  | r :: rest, paper_counts =>
    let count := paper_counts r.paper_id
    if count < max_per_paper then
      r :: ensureDiversityAux max_per_paper rest
        (fun p => if p = r.paper_id then count + 1 else paper_counts p)
    else ensureDiversityAux max_per_paper rest paper_counts

/-- `src/rag/reranker.py`, `ensure_diversity`. -/
def ensure_diversity (results : List QueryResult) (max_per_paper : Nat) :
    List QueryResult :=
  ensureDiversityAux max_per_paper results fun _ => 0

/-- A chunk record (`src/processing/chunker.py`, `Chunk`). -/
structure Chunk where
  text : List Char
  index : Nat
  paper_id : List Char
  start_char : Nat
  end_char : Nat

/-- Indices at which the two-character pattern `c1 c2` occurs, ascending. -/
def positions2 (c1 c2 : Char) : List Char → Nat → List Nat
  | c :: c' :: rest, i =>
    (if c = c1 ∧ c' = c2 then [i] else []) ++ positions2 c1 c2 (c' :: rest) (i + 1)
  | _, _ => []

/-- Model of Python `str.rfind` for a two-character pattern: last occurrence
index, `-1` if absent. -/
def rfind2 (c1 c2 : Char) (s : List Char) : Int :=
  match (positions2 c1 c2 s 0).getLast? with
  | some i => (i : Int)
  | none => -1

/-- Indices at which the character `c1` occurs, ascending. -/
def positions1 (c1 : Char) : List Char → Nat → List Nat
  | c :: rest, i => (if c = c1 then [i] else []) ++ positions1 c1 rest (i + 1)
  | [], _ => []

/-- Model of Python `str.rfind` for a single character. -/
def rfind1 (c1 : Char) (s : List Char) : Int :=
  match (positions1 c1 s 0).getLast? with
  | some i => (i : Int)
  | none => -1

/-- The whitespace normalisation at the top of `chunk_text`:
`' '.join(text.split())`.  The preceding `\r\n`/`\r` to `\n` replacements are
absorbed because `split()` already treats `\r` and `\n` as whitespace. -/
def cleanText (text : List Char) : List Char := joinSp (splitWS text)

/-- One iteration of the `chunk_text` while-loop up to (not including) the
overlap step-back: returns the final chunk slice and the intermediate
`start_index` (the value before `max(0, start_index - chunk_overlap)`).
The guard `break_point > chunk_size * 0.5` is written in the exactly
equivalent integer form `chunk_size < 2 * break_point` (`break_point` is an
integer and `chunk_size * 0.5` is an exact float). -/
def chunkBody (s : List Char) (chunk_size : Nat) (start_index : Nat) : List Char × Nat :=
  let end_index := min (start_index + chunk_size) s.length
  let chunk_piece := (s.drop start_index).take (end_index - start_index)
  if end_index < s.length then
    let last_period := rfind2 '.' ' ' chunk_piece
    let last_newline := rfind1 '\n' chunk_piece
    let last_exclamation := rfind2 '!' ' ' chunk_piece
    let last_question := rfind2 '?' ' ' chunk_piece
    let break_point := max (max (max last_period last_newline) last_exclamation) last_question
    if (chunk_size : Int) < 2 * break_point then
      (chunk_piece.take (break_point.toNat + 1), start_index + break_point.toNat + 1)
    else (chunk_piece, end_index)
  else (chunk_piece, end_index)

/-- The next value of `start_index` after one full loop iteration: the body's
new start, then the overlap step-back `max(0, start - overlap)` whenever the
loop will run again.  (`Nat` subtraction is the `max 0` clamp.) -/
def nextStart (s : List Char) (chunk_size chunk_overlap : Nat) (start_index : Nat) : Nat :=
  let s1 := (chunkBody s chunk_size start_index).2
  if s1 < s.length then s1 - chunk_overlap else s1

/-- The `chunk_text` while-loop with explicit fuel: `none` means the loop had
not finished after `fuel` iterations.  The accumulator is kept reversed. -/
def chunkLoop (s : List Char) (paper_id : List Char) (chunk_size chunk_overlap : Nat) :
    Nat → Nat → Nat → List Chunk → Option (List Chunk)
  | 0, start_index, _, acc =>
    if s.length ≤ start_index then some acc.reverse else none
  | fuel + 1, start_index, chunk_index, acc =>
    if s.length ≤ start_index then some acc.reverse
    else
      let piece := (chunkBody s chunk_size start_index).1
      let s1 := (chunkBody s chunk_size start_index).2
      let stripped := stripStr piece
      let acc' :=
        if stripped ≠ [] then
          ({ text := stripped, index := chunk_index, paper_id := paper_id,
             start_char := s1 - piece.length, end_char := s1 } : Chunk) :: acc
        else acc
      let chunk_index' := if stripped ≠ [] then chunk_index + 1 else chunk_index
      chunkLoop s paper_id chunk_size chunk_overlap fuel
        (nextStart s chunk_size chunk_overlap start_index) chunk_index' acc'

/-- `src/processing/chunker.py`, `chunk_text`, with explicit fuel for the
while-loop. -/
def chunk_textF (text paper_id : List Char) (chunk_size chunk_overlap fuel : Nat) :
    Option (List Chunk) :=
  if stripStr text = [] then some []
  else chunkLoop (cleanText text) paper_id chunk_size chunk_overlap fuel 0 0 []

/-- The loop of `chunk_text` terminates on the given input: some finite amount
of fuel suffices. -/
def chunkTerminates (text paper_id : List Char) (chunk_size chunk_overlap : Nat) : Prop :=
  ∃ fuel out, chunk_textF text paper_id chunk_size chunk_overlap fuel = some out

/-- `chunk_text` with the fuel that suffices whenever the loop makes progress
at every iteration. -/
def chunk_text (text paper_id : List Char) (chunk_size chunk_overlap : Nat) :
    Option (List Chunk) :=
  chunk_textF text paper_id chunk_size chunk_overlap ((cleanText text).length + 1)

/-- Length of the common prefix of two character lists. -/
def runLen : List Char → List Char → Nat
  | a :: as, b :: bs => if a = b then runLen as bs + 1 else 0
  | _, _ => 0

/-- `difflib.SequenceMatcher.find_longest_match` on short strings (no junk
heuristic applies below 200 characters): the longest matching block
`(i, j, k)`, ties broken towards the smallest `i`, then the smallest `j`,
which is what the strictly-greater update in difflib produces. -/
def longestMatch (a b : List Char) : Nat × Nat × Nat :=
  (((List.range a.length).flatMap fun i =>
      (List.range b.length).map fun j => (i, j, runLen (a.drop i) (b.drop j)))).foldl
    (fun best c => if best.2.2 < c.2.2 then c else best) (0, 0, 0)

/-- Total number of matched characters over `difflib.SequenceMatcher`'s
recursive matching-block decomposition.  The fuel `a.length + b.length`
dominates the recursion depth (each recursive call strictly shrinks the
`a`-window), so it is never exhausted. -/
def matchSumF : Nat → List Char → List Char → Nat
  | 0, _, _ => 0
  | fuel + 1, a, b =>
    let m := longestMatch a b
    if m.2.2 = 0 then 0
    else
      matchSumF fuel (a.take m.1) (b.take m.2.1) + m.2.2 +
        matchSumF fuel (a.drop (m.1 + m.2.2)) (b.drop (m.2.1 + m.2.2))

/-- Total matched characters of `difflib.SequenceMatcher(None, a, b)`. -/
def sequenceMatcherTotal (a b : List Char) : Nat := matchSumF (a.length + b.length) a b

/-- `src/api/deduplication.py`, `similarity_score`:
`SequenceMatcher(None, str1.lower(), str2.lower()).ratio()`, i.e.
`2·M / (len a + len b)`, and 1 when both strings are empty.  The quotient is
written with `mkRat` (the same rational number) so that the kernel can
evaluate it. -/
def similarity_score (str1 str2 : List Char) : ℚ :=
  let a := lowerStr str1
  let b := lowerStr str2
  if a.length + b.length = 0 then 1
  else mkRat (2 * (sequenceMatcherTotal a b : Int)) (a.length + b.length)

/-- One paper record as assembled by `find_duplicate_papers` from the chunk
metadata (one entry per distinct `paper_id`). -/
structure Paper where
  paper_id : List Char
  title : List Char
  authors : List Char
  doi : List Char
  arxiv_id : List Char
  year : Option Int
deriving DecidableEq

/-- `arxiv_id.split('v')[0]`: the part before the first `v`. -/
def arxivBase (arxiv_id : List Char) : List Char :=
  arxiv_id.takeWhile fun c => c ≠ 'v'

/-- The match decision of the inner loop of `find_duplicate_papers`: DOI
equality when both are non-empty, else arXiv base-id equality when both are
non-empty, else title similarity at or above `threshold` combined with author
similarity at or above `0.7`. -/
def pairMatch (threshold : ℚ) (paper1 paper2 : Paper) : Bool :=
  if paper1.doi ≠ [] ∧ paper2.doi ≠ [] ∧ paper1.doi = paper2.doi then true
  else if paper1.arxiv_id ≠ [] ∧ paper2.arxiv_id ≠ [] ∧
      arxivBase paper1.arxiv_id = arxivBase paper2.arxiv_id then true
  else if similarity_score paper1.title paper2.title ≥ threshold then
    similarity_score paper1.authors paper2.authors ≥ mkRat 7 10
  else false

/-- The inner loop of `find_duplicate_papers`: scan the papers after
`paper1`, skipping already-claimed ids, adding every match to the group and
claiming it.  Returns the added members and the updated claimed set. -/
def buildGroup (threshold : ℚ) (paper1 : Paper) :
    List Paper → List (List Char) → List Paper × List (List Char)
  | [], checked => ([], checked)
  | paper2 :: rest, checked =>
    if paper2.paper_id ∈ checked then buildGroup threshold paper1 rest checked
    else if pairMatch threshold paper1 paper2 then
      let r := buildGroup threshold paper1 rest (paper2.paper_id :: checked)
      (paper2 :: r.1, r.2)
    else buildGroup threshold paper1 rest checked

/-- The outer loop of `find_duplicate_papers`: each unclaimed paper starts a
group; a group is recorded (and its leader claimed) only when it has more
than one member.  The constant `group_id`/`reason` fields of the source are
omitted; a group is its member list, leader first. -/
def dedupLoop (threshold : ℚ) : List Paper → List (List Char) → List (List Paper)
  | [], _ => []
  | paper1 :: rest, checked =>
    if paper1.paper_id ∈ checked then dedupLoop threshold rest checked
    else
      let r := buildGroup threshold paper1 rest checked
      if r.1 = [] then dedupLoop threshold rest r.2
      else (paper1 :: r.1) :: dedupLoop threshold rest (paper1.paper_id :: r.2)

/-- `src/api/deduplication.py`, `find_duplicate_papers`, from the point where
the per-paper records are in hand (the Chroma collection walk that assembles
one record per distinct `paper_id` is the data source; the corpus list is the
argument here). -/
def find_duplicate_papers (papers : List Paper) (threshold : ℚ) : List (List Paper) :=
  dedupLoop threshold papers []

/-- The acronym table of `normalize_query` (`src/rag/query_expander.py`),
applied to whole tokens. -/
def acronymExpand (w : List Char) : List Char :=
  if w = "nlp".data then "natural language processing".data
  else if w = "ml".data then "machine learning".data
  else if w = "dl".data then "deep learning".data
  else if w = "ai".data then "artificial intelligence".data
  else if w = "cv".data then "computer vision".data
  else w

/-- `src/rag/query_expander.py`, `normalize_query`: collapse whitespace,
lowercase, expand acronym tokens, rejoin with single spaces. -/
def normalize_query (query : List Char) : List Char :=
  let collapsed := joinSp (splitWS query)
  let words := splitWS (lowerStr collapsed)
  joinSp (words.map acronymExpand)

/-- First paper of the C1 counterexample corpus: no DOI, an arXiv id whose
version-stripped base equals the second paper's. -/
def c1X : Paper :=
  { paper_id := "px".data, title := "aaaa".data, authors := "a1".data,
    doi := [], arxiv_id := "1234v1".data, year := none }

/-- Second paper of the C1 counterexample corpus: shares its DOI with the
third paper and its arXiv base id with the first. -/
def c1B : Paper :=
  { paper_id := "pb".data, title := "bbbb".data, authors := "b1".data,
    doi := "10.1/x".data, arxiv_id := "1234v2".data, year := none }

/-- Third paper of the C1 counterexample corpus: same non-empty DOI as the
second paper, no arXiv id, title dissimilar from the first paper's. -/
def c1A : Paper :=
  { paper_id := "pa".data, title := "zzzz".data, authors := "c1".data,
    doi := "10.1/x".data, arxiv_id := [], year := none }

/-- The C4 counterexample text: a sentence boundary at index 6 so that, with
`chunk_size = 10` and `chunk_overlap = 7`, the loop advances to 7 and the
overlap step-back returns it to 0 forever. -/
def c4text : List Char := "xxxxxx. yyyyyyyyyy".data

/-- The contribution of the citation step of `calculate_quality_score`. -/
noncomputable def citationTerm (m : PaperMetadata) : ℝ :=
  if 0 < m.citation_count.getD 0 then
    min 1.0 (Real.log (1 + (m.citation_count.getD 0 : ℝ)) / Real.log 1000) * 0.3
  else 0

/-- The contribution of the recency step of `calculate_quality_score`. -/
noncomputable def recencyTerm (m : PaperMetadata) (currentYear : Int) : ℝ :=
  match m.year with
  | some y =>
    if y ≠ 0 then
      (if currentYear - y ≤ 1 then 1.0
        else if currentYear - y ≤ 5 then 0.8
        else if currentYear - y ≤ 10 then 0.6
        else max 0.3 (1.0 - ((currentYear - y : Int) : ℝ) / 50)) * 0.2
    else 0
  | none => 0

/-- The contribution of the open-access step of `calculate_quality_score`. -/
noncomputable def pdfTerm (m : PaperMetadata) : ℝ :=
  if m.pdf_url ≠ [] then 0.15 else 0

/-- The contribution of the source step of `calculate_quality_score`. -/
noncomputable def sourceTerm (m : PaperMetadata) : ℝ :=
  if m.source = "arxiv".data then 0.1
  else if m.source = "semantic_scholar".data then 0.1
  else 0

/-- The contribution of the abstract step of `calculate_quality_score`. -/
noncomputable def abstractTerm (m : PaperMetadata) : ℝ :=
  if m.abstract ≠ [] ∧ 200 < m.abstract.length then 0.1 else 0

/-- The contribution of the author step of `calculate_quality_score`. -/
noncomputable def authorTerm (m : PaperMetadata) : ℝ :=
  if 2 ≤ m.authors.length then 0.05 else 0

/-- The contribution of the title step of `calculate_quality_score`. -/
noncomputable def titleTerm (m : PaperMetadata) : ℝ :=
  if 5 ≤ (splitWS m.title).length ∧ (splitWS m.title).length ≤ 20 then 0.05 else 0

/-- The C6 counterexample record: empty metadata except `year = 0`. -/
def c6meta : PaperMetadata :=
  { citation_count := none, year := some 0, pdf_url := [], source := [],
    abstract := [], authors := [], title := [] }

/-- The single candidate of the C5 counterexample: maximum semantic score in
its (one-element) candidate list, but keyword score 1 above its semantic
score 1/2. -/
noncomputable def c5r : QueryResult :=
  { chunk_id := "c".data, paper_id := "p".data, chunk_index := 0,
    text := "hello world".data, score := 1 / 2, metadata := [] }

/-- The concrete candidate of the C7 witness. -/
noncomputable def c7r : QueryResult :=
  { chunk_id := [], paper_id := "p".data, chunk_index := 0, text := [],
    score := 1 / 2, metadata := [] }

/-- The identity-relevant fields of a result: everything except the score and
the score metadata. -/
def coreFields (r : QueryResult) : List Char × List Char × Nat × List Char :=
  (r.chunk_id, r.paper_id, r.chunk_index, r.text)

theorem toNat_ofNat_valid (n : Nat) (h : n.isValidChar) :
    (Char.ofNat n).toNat = n := by
  rw [Char.ofNat, dif_pos h]; rfl

theorem isWS_lowerChar (c : Char) : isWS (lowerChar c) = isWS c := by
  unfold lowerChar
  split
  · next h =>
    have hv : (c.toNat + 32).isValidChar := Or.inl (by omega)
    simp only [isWS, toNat_ofNat_valid _ hv]
    have h32 : ¬ (c.toNat + 32 = 32 ∨ c.toNat + 32 = 9 ∨ c.toNat + 32 = 10 ∨
        c.toNat + 32 = 13) := by omega
    have hc : ¬ (c.toNat = 32 ∨ c.toNat = 9 ∨ c.toNat = 10 ∨ c.toNat = 13) := by omega
    simp only [Bool.or_eq_true, decide_eq_true_eq] at *
    simp [not_or] at h32 hc
    simp [h32, hc]
  · rfl

theorem lowerChar_idem (c : Char) : lowerChar (lowerChar c) = lowerChar c := by
  unfold lowerChar
  split
  · next h =>
    have hv : (c.toNat + 32).isValidChar := Or.inl (by omega)
    rw [if_neg]
    rw [toNat_ofNat_valid _ hv]
    omega
  · rfl

theorem splitWS_cons_ws {c : Char} (h : isWS c = true) (s : List Char) :
    splitWS (c :: s) = splitWS s := by
  simp [splitWS, h]

theorem splitWS_cons_not_ws {c : Char} (h : isWS c = false) (s : List Char) :
    splitWS (c :: s) =
      (c :: s.takeWhile fun d => !isWS d) ::
        splitWS (s.dropWhile fun d => !isWS d) := by
  induction s generalizing c with
  | nil => simp [splitWS, h]
  | cons c' t ih =>
    by_cases h' : isWS c' = true
    · simp [splitWS, h, h', List.takeWhile_cons_of_neg, List.dropWhile_cons_of_neg]
    · rw [Bool.not_eq_true] at h'
      have key : splitWS (c :: c' :: t) =
          match splitWS (c' :: t) with
          | [] => [[c]]
          | w :: ws => (c :: w) :: ws := by
        simp [splitWS, h, h']
      rw [key, ih h']
      rw [List.takeWhile_cons_of_pos (by simp [h']),
        List.dropWhile_cons_of_pos (by simp [h'])]

theorem splitWS_words (s : List Char) :
    ∀ w ∈ splitWS s, w ≠ [] ∧ ∀ c ∈ w, isWS c = false := by
  suffices H : ∀ n (s : List Char), s.length ≤ n →
      ∀ w ∈ splitWS s, w ≠ [] ∧ ∀ c ∈ w, isWS c = false from H s.length s le_rfl
  intro n
  induction n with
  | zero =>
    intro s hs
    have : s = [] := List.length_eq_zero.mp (Nat.le_zero.mp hs)
    subst this; simp [splitWS]
  | succ n ih =>
    intro s hs w hw
    match s with
    | [] => simp [splitWS] at hw
    | c :: t =>
      by_cases hc : isWS c = true
      · rw [splitWS_cons_ws hc] at hw
        exact ih t (by simpa using Nat.le_of_succ_le_succ hs) w hw
      · rw [Bool.not_eq_true] at hc
        rw [splitWS_cons_not_ws hc] at hw
        rcases List.mem_cons.mp hw with rfl | hw
        · refine ⟨by simp, ?_⟩
          intro d hd
          rcases List.mem_cons.mp hd with rfl | hd
          · exact hc
          · have := List.mem_takeWhile_imp hd
            simpa using this
        · have hlen : (t.dropWhile fun d => !isWS d).length ≤ n := by
            have h1 : (t.dropWhile fun d => !isWS d).length ≤ t.length :=
              (List.dropWhile_sublist _).length_le
            have h2 : t.length ≤ n := by simpa using Nat.le_of_succ_le_succ hs
            omega
          exact ih _ hlen w hw

theorem splitWS_single_word (w : List Char) (hne : w ≠ [])
    (h : ∀ c ∈ w, isWS c = false) : splitWS w = [w] := by
  match w with
  | [] => exact absurd rfl hne
  | c :: t =>
    rw [splitWS_cons_not_ws (h c (by simp))]
    have ht : t.takeWhile (fun d => !isWS d) = t :=
      List.takeWhile_eq_self_iff.mpr (by intro d hd; simp [h d (by simp [hd])])
    have hd : t.dropWhile (fun d => !isWS d) = [] :=
      List.dropWhile_eq_nil_iff.mpr (by intro d hd; simp [h d (by simp [hd])])
    rw [ht, hd]
    simp [splitWS]

theorem takeWhile_append_stop {α} (p : α → Bool) (x : α) (hx : p x = false)
    (a b : List α) : ((a ++ x :: b).takeWhile p) = a.takeWhile p := by
  induction a with
  | nil => simp [List.takeWhile_cons, hx]
  | cons c a ih =>
    by_cases hc : p c = true
    · simp [List.takeWhile_cons, hc, ih]
    · rw [Bool.not_eq_true] at hc
      simp [List.takeWhile_cons, hc]

theorem dropWhile_append_stop {α} (p : α → Bool) (x : α) (hx : p x = false)
    (a b : List α) : ((a ++ x :: b).dropWhile p) = a.dropWhile p ++ x :: b := by
  induction a with
  | nil => simp [List.dropWhile_cons, hx]
  | cons c a ih =>
    by_cases hc : p c = true
    · simp [List.dropWhile_cons, hc, ih]
    · rw [Bool.not_eq_true] at hc
      simp [List.dropWhile_cons, hc]

theorem splitWS_append_space (y x : List Char) :
    splitWS (x ++ ' ' :: y) = splitWS x ++ splitWS y := by
  suffices H : ∀ n (x : List Char), x.length ≤ n →
      splitWS (x ++ ' ' :: y) = splitWS x ++ splitWS y from H x.length x le_rfl
  intro n
  induction n with
  | zero =>
    intro x hx
    have : x = [] := List.length_eq_zero.mp (Nat.le_zero.mp hx)
    subst this
    rw [List.nil_append, splitWS_cons_ws (show isWS ' ' = true from by decide)]
    simp [splitWS]
  | succ n ih =>
    intro x hx
    match x with
    | [] =>
      rw [List.nil_append, splitWS_cons_ws (show isWS ' ' = true from by decide)]
      simp [splitWS]
    | c :: t =>
      by_cases hc : isWS c = true
      · rw [List.cons_append, splitWS_cons_ws hc, splitWS_cons_ws hc]
        exact ih t (by simpa using Nat.le_of_succ_le_succ hx)
      · rw [Bool.not_eq_true] at hc
        rw [List.cons_append, splitWS_cons_not_ws hc, splitWS_cons_not_ws hc]
        rw [takeWhile_append_stop _ ' ' (by decide),
          dropWhile_append_stop _ ' ' (by decide)]
        have hlen : (t.dropWhile fun d => !isWS d).length ≤ n := by
          have h1 : (t.dropWhile fun d => !isWS d).length ≤ t.length :=
            (List.dropWhile_sublist _).length_le
          have h2 : t.length ≤ n := by simpa using Nat.le_of_succ_le_succ hx
          omega
        rw [ih _ hlen]
        simp

theorem splitWS_joinSp_flat (xs : List (List Char)) :
    splitWS (joinSp xs) = (xs.map splitWS).flatten := by
  induction xs with
  | nil => simp [joinSp, splitWS]
  | cons x xs ih =>
    match xs with
    | [] => simp [joinSp]
    | y :: ys =>
      rw [show joinSp (x :: y :: ys) = x ++ ' ' :: joinSp (y :: ys) from rfl]
      rw [splitWS_append_space, ih]
      simp

theorem splitWS_joinSp_splitWS (s : List Char) :
    splitWS (joinSp (splitWS s)) = splitWS s := by
  rw [splitWS_joinSp_flat]
  have h : (splitWS s).map splitWS = (splitWS s).map fun w => [w] := by
    apply List.map_congr_left
    intro w hw
    obtain ⟨hne, hval⟩ := splitWS_words s w hw
    exact splitWS_single_word w hne hval
  rw [h]
  induction splitWS s with
  | nil => simp
  | cons w ws ih => simp [ih]

theorem joinSp_append (a b : List (List Char)) (ha : a ≠ []) (hb : b ≠ []) :
    joinSp (a ++ b) = joinSp a ++ ' ' :: joinSp b := by
  induction a with
  | nil => exact absurd rfl ha
  | cons w ws ih =>
    match ws with
    | [] =>
      match b with
      | [] => exact absurd rfl hb
      | z :: zs => simp [joinSp]
    | w' :: ws' =>
      rw [show (w :: w' :: ws') ++ b = w :: ((w' :: ws') ++ b) from rfl]
      rw [show joinSp (w :: w' :: ws') = w ++ ' ' :: joinSp (w' :: ws') from rfl]
      have hcons : joinSp (w :: (w' :: ws' ++ b)) = w ++ ' ' :: joinSp (w' :: ws' ++ b) := by
        match b with
        | z :: zs => rfl
      rw [hcons, ih (by simp)]
      simp

theorem joinSp_flat_norm (xs : List (List Char))
    (h : ∀ x ∈ xs, splitWS x ≠ [] ∧ joinSp (splitWS x) = x) :
    joinSp ((xs.map splitWS).flatten) = joinSp xs := by
  induction xs with
  | nil => rfl
  | cons x xs ih =>
    match xs with
    | [] =>
      simp only [List.map, List.flatten]
      rw [List.append_nil]
      exact (h x (by simp)).2
    | y :: ys =>
      have hx := h x (by simp)
      have hflat_ne : ((((y :: ys)).map splitWS).flatten) ≠ [] := by
        have hy := h y (by simp)
        simp only [List.map, List.flatten]
        intro hcontra
        rcases List.append_eq_nil.mp hcontra with ⟨h1, _⟩
        exact hy.1 h1
      rw [show ((x :: y :: ys).map splitWS).flatten
          = splitWS x ++ (((y :: ys).map splitWS).flatten) by simp]
      rw [joinSp_append _ _ hx.1 hflat_ne]
      rw [ih (fun z hz => h z (by simp [hz]))]
      rw [hx.2]
      rw [show joinSp (x :: y :: ys) = x ++ ' ' :: joinSp (y :: ys) from rfl]

theorem ensureDiversityAux_count (k : Nat) (l : List QueryResult) (pid : List Char) :
    ∀ counts : List Char → Nat,
      (ensureDiversityAux k l counts).countP (fun r => decide (r.paper_id = pid))
        ≤ k - counts pid := by
  induction l with
  | nil => intro counts; simp [ensureDiversityAux]
  | cons r rest ih =>
    intro counts
    show (ensureDiversityAux k (r :: rest) counts).countP _ ≤ _
    rw [ensureDiversityAux]
    by_cases h : counts r.paper_id < k
    · rw [if_pos h, List.countP_cons]
      have hih := ih fun p => if p = r.paper_id then counts r.paper_id + 1 else counts p
      by_cases hp : r.paper_id = pid
      · subst hp
        rw [if_pos rfl] at hih
        simp only [decide_eq_true_eq, if_pos rfl, if_true]
        omega
      · rw [if_neg fun hc => hp hc.symm] at hih
        simp only [decide_eq_true_eq, hp, if_false]
        omega
    · rw [if_neg h]
      exact ih counts

/-- C3: for every input list of ranked candidates and every positive integer
`k`, no `paper_id` occurs more than `k` times in the output of
`ensure_diversity results k`, whatever the input list's size and distribution
of documents. -/
theorem c3_diversity_cap (results : List QueryResult) (k : Nat) (pid : List Char)
    (_hk : 0 < k) :
    (ensure_diversity results k).countP (fun r => decide (r.paper_id = pid)) ≤ k := by
  have h := ensureDiversityAux_count k results pid fun _ => 0
  simpa [ensure_diversity] using h

/-- Witness for C3 at a concrete input: three results from the same paper,
cap 2. -/
theorem c3_diversity_cap_witness :
    0 < 2 ∧
      (ensure_diversity
        [{ chunk_id := [], paper_id := "p".data, chunk_index := 0, text := [],
           score := 0, metadata := [] },
         { chunk_id := [], paper_id := "p".data, chunk_index := 1, text := [],
           score := 0, metadata := [] },
         { chunk_id := [], paper_id := "p".data, chunk_index := 2, text := [],
           score := 0, metadata := [] }] 2).countP
        (fun r => decide (r.paper_id = "p".data)) ≤ 2 :=
  ⟨by norm_num, c3_diversity_cap _ 2 "p".data (by norm_num)⟩

theorem buildGroup_checked_mono (t : ℚ) (p1 : Paper) :
    ∀ (l : List Paper) (checked : List (List Char)),
      checked ⊆ (buildGroup t p1 l checked).2 := by
  intro l
  induction l with
  | nil => intro checked; simp [buildGroup]
  | cons p2 rest ih =>
    intro checked
    by_cases h1 : p2.paper_id ∈ checked
    · rw [buildGroup, if_pos h1]; exact ih checked
    · by_cases h2 : pairMatch t p1 p2 = true
      · rw [buildGroup, if_neg h1, if_pos h2]
        dsimp only
        exact fun x hx => ih (p2.paper_id :: checked) (List.mem_cons_of_mem _ hx)
      · rw [buildGroup, if_neg h1, if_neg h2]; exact ih checked

theorem buildGroup_mem_not_checked (t : ℚ) (p1 : Paper) :
    ∀ (l : List Paper) (checked : List (List Char)),
      ∀ p ∈ (buildGroup t p1 l checked).1, p.paper_id ∉ checked := by
  intro l
  induction l with
  | nil => intro checked p hp; simp [buildGroup] at hp
  | cons p2 rest ih =>
    intro checked p hp
    by_cases h1 : p2.paper_id ∈ checked
    · rw [buildGroup, if_pos h1] at hp; exact ih checked p hp
    · by_cases h2 : pairMatch t p1 p2 = true
      · rw [buildGroup, if_neg h1, if_pos h2] at hp
        dsimp only at hp
        rcases List.mem_cons.mp hp with rfl | hp
        · exact h1
        · intro hc
          exact ih (p2.paper_id :: checked) p hp (List.mem_cons_of_mem _ hc)
      · rw [buildGroup, if_neg h1, if_neg h2] at hp; exact ih checked p hp

theorem buildGroup_mem_checked (t : ℚ) (p1 : Paper) :
    ∀ (l : List Paper) (checked : List (List Char)),
      ∀ p ∈ (buildGroup t p1 l checked).1, p.paper_id ∈ (buildGroup t p1 l checked).2 := by
  intro l
  induction l with
  | nil => intro checked p hp; simp [buildGroup] at hp
  | cons p2 rest ih =>
    intro checked p hp
    by_cases h1 : p2.paper_id ∈ checked
    · rw [buildGroup, if_pos h1] at hp ⊢; exact ih checked p hp
    · by_cases h2 : pairMatch t p1 p2 = true
      · rw [buildGroup, if_neg h1, if_pos h2] at hp ⊢
        dsimp only at hp ⊢
        rcases List.mem_cons.mp hp with rfl | hp
        · exact buildGroup_checked_mono t p1 rest (p.paper_id :: checked) (by simp)
        · exact ih (p2.paper_id :: checked) p hp
      · rw [buildGroup, if_neg h1, if_neg h2] at hp ⊢; exact ih checked p hp

theorem buildGroup_checked_src (t : ℚ) (p1 : Paper) :
    ∀ (l : List Paper) (checked : List (List Char)) (pid : List Char),
      pid ∈ (buildGroup t p1 l checked).2 →
      pid ∈ checked ∨ ∃ p ∈ (buildGroup t p1 l checked).1, p.paper_id = pid := by
  intro l
  induction l with
  | nil => intro checked pid h; rw [buildGroup] at h; exact Or.inl h
  | cons p2 rest ih =>
    intro checked pid h
    by_cases h1 : p2.paper_id ∈ checked
    · rw [buildGroup, if_pos h1] at h ⊢; exact ih checked pid h
    · by_cases h2 : pairMatch t p1 p2 = true
      · rw [buildGroup, if_neg h1, if_pos h2] at h ⊢
        dsimp only at h ⊢
        rcases ih (p2.paper_id :: checked) pid h with hin | ⟨p, hp, hpid⟩
        · rcases List.mem_cons.mp hin with rfl | hin
          · exact Or.inr ⟨p2, by simp, rfl⟩
          · exact Or.inl hin
        · exact Or.inr ⟨p, List.mem_cons_of_mem _ hp, hpid⟩
      · rw [buildGroup, if_neg h1, if_neg h2] at h ⊢; exact ih checked pid h

theorem buildGroup_mem_match (t : ℚ) (p1 : Paper) :
    ∀ (l : List Paper) (checked : List (List Char)),
      ∀ p ∈ (buildGroup t p1 l checked).1, pairMatch t p1 p = true := by
  intro l
  induction l with
  | nil => intro checked p hp; simp [buildGroup] at hp
  | cons p2 rest ih =>
    intro checked p hp
    by_cases h1 : p2.paper_id ∈ checked
    · rw [buildGroup, if_pos h1] at hp; exact ih checked p hp
    · by_cases h2 : pairMatch t p1 p2 = true
      · rw [buildGroup, if_neg h1, if_pos h2] at hp
        dsimp only at hp
        rcases List.mem_cons.mp hp with rfl | hp
        · exact h2
        · exact ih (p2.paper_id :: checked) p hp
      · rw [buildGroup, if_neg h1, if_neg h2] at hp; exact ih checked p hp

theorem buildGroup_mem_sub (t : ℚ) (p1 : Paper) :
    ∀ (l : List Paper) (checked : List (List Char)),
      ∀ p ∈ (buildGroup t p1 l checked).1, p ∈ l := by
  intro l
  induction l with
  | nil => intro checked p hp; simp [buildGroup] at hp
  | cons p2 rest ih =>
    intro checked p hp
    by_cases h1 : p2.paper_id ∈ checked
    · rw [buildGroup, if_pos h1] at hp; exact List.mem_cons_of_mem _ (ih checked p hp)
    · by_cases h2 : pairMatch t p1 p2 = true
      · rw [buildGroup, if_neg h1, if_pos h2] at hp
        dsimp only at hp
        rcases List.mem_cons.mp hp with rfl | hp
        · exact List.mem_cons_self _ _
        · exact List.mem_cons_of_mem _ (ih (p2.paper_id :: checked) p hp)
      · rw [buildGroup, if_neg h1, if_neg h2] at hp
        exact List.mem_cons_of_mem _ (ih checked p hp)

theorem buildGroup_mem_of_match (t : ℚ) (p1 B : Paper) :
    ∀ (l : List Paper) (checked : List (List Char)),
      B ∈ l → B.paper_id ∉ checked → pairMatch t p1 B = true →
      (l.map Paper.paper_id).Nodup →
      B ∈ (buildGroup t p1 l checked).1 := by
  intro l
  induction l with
  | nil => intro checked hB; simp at hB
  | cons p2 rest ih =>
    intro checked hB hBc hm hnd
    rcases List.mem_cons.mp hB with rfl | hB
    · rw [buildGroup, if_neg hBc, if_pos hm]
      dsimp only
      exact List.mem_cons_self _ _
    · have hnd' : (rest.map Paper.paper_id).Nodup := by
        simpa using hnd.of_cons
      by_cases h1 : p2.paper_id ∈ checked
      · rw [buildGroup, if_pos h1]; exact ih checked hB hBc hm hnd'
      · by_cases h2 : pairMatch t p1 p2 = true
        · rw [buildGroup, if_neg h1, if_pos h2]
          dsimp only
          refine List.mem_cons_of_mem _ (ih (p2.paper_id :: checked) hB ?_ hm hnd')
          intro hc
          rcases List.mem_cons.mp hc with heq | hc
          · have hnotin : p2.paper_id ∉ rest.map Paper.paper_id := by
              rw [List.map_cons, List.nodup_cons] at hnd
              exact hnd.1
            exact hnotin (heq ▸ List.mem_map_of_mem Paper.paper_id hB)
          · exact hBc hc
        · rw [buildGroup, if_neg h1, if_neg h2]; exact ih checked hB hBc hm hnd'

theorem dedupLoop_not_checked (t : ℚ) :
    ∀ (l : List Paper) (checked : List (List Char)),
      ∀ g ∈ dedupLoop t l checked, ∀ p ∈ g, p.paper_id ∉ checked := by
  intro l
  induction l with
  | nil => intro checked g hg; simp [dedupLoop] at hg
  | cons p1 rest ih =>
    intro checked g hg p hp
    by_cases h1 : p1.paper_id ∈ checked
    · rw [dedupLoop, if_pos h1] at hg; exact ih checked g hg p hp
    · rw [dedupLoop, if_neg h1] at hg
      dsimp only at hg
      by_cases h2 : (buildGroup t p1 rest checked).1 = []
      · rw [if_pos h2] at hg
        intro hc
        exact ih _ g hg p hp (buildGroup_checked_mono t p1 rest checked hc)
      · rw [if_neg h2] at hg
        rcases List.mem_cons.mp hg with rfl | hg
        · rcases List.mem_cons.mp hp with rfl | hp2
          · exact h1
          · exact buildGroup_mem_not_checked t p1 rest checked p hp2
        · intro hc
          have hsub : p.paper_id ∈ p1.paper_id :: (buildGroup t p1 rest checked).2 :=
            List.mem_cons_of_mem _ (buildGroup_checked_mono t p1 rest checked hc)
          exact ih _ g hg p hp hsub

/-- C9: for every corpus and threshold, the duplicate groups returned by
`find_duplicate_papers` are pairwise disjoint — no paper id is a member of
more than one returned group (the single-pass claimed-set algorithm never
assigns a document to two groups). -/
theorem c9_dedup_groups_disjoint (papers : List Paper) (threshold : ℚ) :
    (find_duplicate_papers papers threshold).Pairwise
      fun g1 g2 => ∀ p ∈ g1, ∀ q ∈ g2, p.paper_id ≠ q.paper_id := by
  rw [find_duplicate_papers]
  suffices H : ∀ (l : List Paper) (checked : List (List Char)),
      (dedupLoop threshold l checked).Pairwise
        (fun g1 g2 => ∀ p ∈ g1, ∀ q ∈ g2, p.paper_id ≠ q.paper_id) from H papers []
  intro l
  induction l with
  | nil => intro checked; simp [dedupLoop]
  | cons p1 rest ih =>
    intro checked
    by_cases h1 : p1.paper_id ∈ checked
    · rw [dedupLoop, if_pos h1]; exact ih checked
    · rw [dedupLoop, if_neg h1]
      dsimp only
      by_cases h2 : (buildGroup threshold p1 rest checked).1 = []
      · rw [if_pos h2]; exact ih _
      · rw [if_neg h2]
        refine List.Pairwise.cons ?_ (ih _)
        intro g hg p hp q hq heq
        have hq' : q.paper_id ∉ p1.paper_id :: (buildGroup threshold p1 rest checked).2 :=
          dedupLoop_not_checked threshold rest _ g hg q hq
        rcases List.mem_cons.mp hp with rfl | hp2
        · exact hq' (heq ▸ List.mem_cons_self _ _)
        · exact hq'
            (heq ▸ List.mem_cons_of_mem _
              (buildGroup_mem_checked threshold p1 rest checked p hp2))

theorem pairMatch_of_doi (t : ℚ) {A B : Paper} (hdoiA : A.doi ≠ [])
    (hdoi : A.doi = B.doi) : pairMatch t A B = true := by
  rw [pairMatch, if_pos ⟨hdoiA, fun hc => hdoiA (hdoi.trans hc), hdoi⟩]

theorem dedupLoop_pair (t : ℚ) (A B : Paper) (hdoiA : A.doi ≠ [])
    (hdoi : A.doi = B.doi) :
    ∀ (pre tail : List Paper) (checked : List (List Char)),
      B ∈ tail →
      A.paper_id ∉ checked → B.paper_id ∉ checked →
      ((pre ++ A :: tail).map Paper.paper_id).Nodup →
      (∀ X ∈ pre, pairMatch t X A = false ∧ pairMatch t X B = false) →
      ∃ g ∈ dedupLoop t (pre ++ A :: tail) checked, A ∈ g ∧ B ∈ g := by
  intro pre
  induction pre with
  | nil =>
    intro tail checked hB hAc hBc hnd _hpre
    rw [List.nil_append, dedupLoop, if_neg hAc]
    dsimp only
    have hndtail : (tail.map Paper.paper_id).Nodup := by
      rw [List.nil_append, List.map_cons, List.nodup_cons] at hnd
      exact hnd.2
    have hBg : B ∈ (buildGroup t A tail checked).1 :=
      buildGroup_mem_of_match t A B tail checked hB hBc
        (pairMatch_of_doi t hdoiA hdoi) hndtail
    rw [if_neg (by intro hnil; rw [hnil] at hBg; simp at hBg)]
    exact ⟨A :: (buildGroup t A tail checked).1, List.mem_cons_self _ _,
      List.mem_cons_self _ _, List.mem_cons_of_mem _ hBg⟩
  | cons X pre ih =>
    intro tail checked hB hAc hBc hnd hpre
    have hXA : pairMatch t X A = false := (hpre X (List.mem_cons_self _ _)).1
    have hXB : pairMatch t X B = false := (hpre X (List.mem_cons_self _ _)).2
    have hndrest : ((pre ++ A :: tail).map Paper.paper_id).Nodup := by
      rw [List.cons_append, List.map_cons, List.nodup_cons] at hnd
      exact hnd.2
    have hXnotin : X.paper_id ∉ (pre ++ A :: tail).map Paper.paper_id := by
      rw [List.cons_append, List.map_cons, List.nodup_cons] at hnd
      exact hnd.1
    have hpre' : ∀ Y ∈ pre, pairMatch t Y A = false ∧ pairMatch t Y B = false :=
      fun Y hY => hpre Y (List.mem_cons_of_mem _ hY)
    have hAmem : A ∈ pre ++ A :: tail := by simp
    have hBmem : B ∈ pre ++ A :: tail := by simp [hB]
    have hpidinj : ∀ p ∈ pre ++ A :: tail, ∀ q ∈ pre ++ A :: tail,
        p.paper_id = q.paper_id → p = q := by
      intro p hp q hq hpq
      exact List.inj_on_of_nodup_map hndrest hp hq hpq
    rw [List.cons_append]
    by_cases h1 : X.paper_id ∈ checked
    · rw [dedupLoop, if_pos h1]
      exact ih tail checked hB hAc hBc hndrest hpre'
    · rw [dedupLoop, if_neg h1]
      dsimp only
      have hAg : A ∉ (buildGroup t X (pre ++ A :: tail) checked).1 := by
        intro hmem
        have := buildGroup_mem_match t X (pre ++ A :: tail) checked A hmem
        rw [hXA] at this
        exact Bool.false_ne_true this
      have hBg : B ∉ (buildGroup t X (pre ++ A :: tail) checked).1 := by
        intro hmem
        have := buildGroup_mem_match t X (pre ++ A :: tail) checked B hmem
        rw [hXB] at this
        exact Bool.false_ne_true this
      have hAc2 : A.paper_id ∉ (buildGroup t X (pre ++ A :: tail) checked).2 := by
        intro hc
        rcases buildGroup_checked_src t X (pre ++ A :: tail) checked A.paper_id hc with
          hin | ⟨p, hp, hpid⟩
        · exact hAc hin
        · have hpA : p = A := hpidinj p
            (buildGroup_mem_sub t X (pre ++ A :: tail) checked p hp) A hAmem hpid
          exact hAg (hpA ▸ hp)
      have hBc2 : B.paper_id ∉ (buildGroup t X (pre ++ A :: tail) checked).2 := by
        intro hc
        rcases buildGroup_checked_src t X (pre ++ A :: tail) checked B.paper_id hc with
          hin | ⟨p, hp, hpid⟩
        · exact hBc hin
        · have hpB : p = B := hpidinj p
            (buildGroup_mem_sub t X (pre ++ A :: tail) checked p hp) B hBmem hpid
          exact hBg (hpB ▸ hp)
      have hAX : A.paper_id ≠ X.paper_id := by
        intro hc
        exact hXnotin (hc ▸ List.mem_map_of_mem Paper.paper_id hAmem)
      have hBX : B.paper_id ≠ X.paper_id := by
        intro hc
        exact hXnotin (hc ▸ List.mem_map_of_mem Paper.paper_id hBmem)
      by_cases h2 : (buildGroup t X (pre ++ A :: tail) checked).1 = []
      · rw [if_pos h2]
        exact ih tail _ hB hAc2 hBc2 hndrest hpre'
      · rw [if_neg h2]
        have hAc3 : A.paper_id ∉ X.paper_id :: (buildGroup t X (pre ++ A :: tail) checked).2 :=
          fun hc => (List.mem_cons.mp hc).elim hAX hAc2
        have hBc3 : B.paper_id ∉ X.paper_id :: (buildGroup t X (pre ++ A :: tail) checked).2 :=
          fun hc => (List.mem_cons.mp hc).elim hBX hBc2
        obtain ⟨g, hg, hgA, hgB⟩ := ih tail _ hB hAc3 hBc3 hndrest hpre'
        exact ⟨g, List.mem_cons_of_mem _ hg, hgA, hgB⟩

/-- C1 amended: two documents with identical non-empty DOIs are placed in the
same duplicate group, provided no earlier document in corpus order matches
either of them under the pairwise criteria (DOI, arXiv base id, or fuzzy
title/author similarity) — without that proviso an earlier document can claim
one of the two into its own group first. -/
theorem c1_amended_doi_grouping (threshold : ℚ) (pre tail : List Paper) (A B : Paper)
    (hB : B ∈ tail) (hdoiA : A.doi ≠ []) (hdoi : A.doi = B.doi)
    (hnd : ((pre ++ A :: tail).map Paper.paper_id).Nodup)
    (hpre : ∀ X ∈ pre, pairMatch threshold X A = false ∧ pairMatch threshold X B = false) :
    ∃ g ∈ find_duplicate_papers (pre ++ A :: tail) threshold, A ∈ g ∧ B ∈ g :=
  dedupLoop_pair threshold A B hdoiA hdoi pre tail [] hB (by simp) (by simp) hnd hpre

/-- C1 counterexample: in the corpus `[c1X, c1B, c1A]` the papers `c1A` and
`c1B` carry the same non-empty DOI, yet no returned duplicate group contains
both — `c1X` claims `c1B` via the arXiv criterion before `c1A` is ever
compared, and `c1A` is left as a discarded singleton.  (`mkRat 85 100` is the
default title threshold `0.85`.) -/
theorem c1_counterexample :
    mkRat 85 100 = (0.85 : ℚ) ∧
    c1A.doi = c1B.doi ∧ c1A.doi ≠ [] ∧
    ∀ g ∈ find_duplicate_papers [c1X, c1B, c1A] (mkRat 85 100),
      ¬(c1A ∈ g ∧ c1B ∈ g) :=
  ⟨by norm_num [Rat.mkRat_eq_div], by decide, by decide, by decide⟩

/-- Witness for the amended C1 theorem: a two-paper corpus with one shared
non-empty DOI, no earlier documents. -/
theorem c1_amended_doi_grouping_witness :
    c1B ∈ [c1B] ∧ c1A.doi ≠ [] ∧ c1A.doi = c1B.doi ∧
    (([] ++ c1A :: [c1B]).map Paper.paper_id).Nodup ∧
    ∃ g ∈ find_duplicate_papers ([] ++ c1A :: [c1B]) (mkRat 85 100),
      c1A ∈ g ∧ c1B ∈ g :=
  ⟨by decide, by decide, by decide, by decide,
    c1_amended_doi_grouping (mkRat 85 100) [] [c1B] c1A c1B (by decide) (by decide)
      (by decide) (by decide) (by simp)⟩

theorem c4_loop_stuck : ∀ (fuel idx : Nat) (acc : List Chunk),
    chunkLoop c4text "doc".data 10 7 fuel 0 idx acc = none := by
  intro fuel
  induction fuel with
  | zero =>
    intro idx acc
    rw [chunkLoop, if_neg (by decide)]
  | succ fuel ih =>
    intro idx acc
    rw [chunkLoop, if_neg (by decide)]
    dsimp only
    rw [show nextStart c4text 10 7 0 = 0 from by decide]
    exact ih _ _

/-- C4 counterexample: with `chunk_size = 10`, `chunk_overlap = 7` (positive,
and overlap < max_size, as the claim requires) the `chunk_text` loop never
terminates on the 18-character input `c4text`: each iteration re-enters with
`start_index = 0`. -/
theorem c4_counterexample :
    0 < (10 : Nat) ∧ 0 < (7 : Nat) ∧ (7 : Nat) < 10 ∧
      ¬ chunkTerminates c4text "doc".data 10 7 := by
  refine ⟨by norm_num, by norm_num, by norm_num, ?_⟩
  rintro ⟨fuel, out, h⟩
  rw [chunk_textF, if_neg (by decide),
    show cleanText c4text = c4text from by decide, c4_loop_stuck fuel 0 []] at h
  exact Option.noConfusion h

theorem chunkBody_progress (s : List Char) (chunk_size chunk_overlap : Nat)
    (hsz : 0 < chunk_size) (hov : 2 * chunk_overlap ≤ chunk_size) (start : Nat)
    (hstart : start < s.length) :
    ((chunkBody s chunk_size start).2 < s.length →
        start + chunk_overlap < (chunkBody s chunk_size start).2) ∧
      start < (chunkBody s chunk_size start).2 := by
  rw [chunkBody]
  by_cases hend : min (start + chunk_size) s.length < s.length
  · rw [if_pos hend]
    have hendeq : min (start + chunk_size) s.length = start + chunk_size := by omega
    set bp : Int := max (max (max
      (rfind2 '.' ' ' ((s.drop start).take (min (start + chunk_size) s.length - start)))
      (rfind1 '\n' ((s.drop start).take (min (start + chunk_size) s.length - start))))
      (rfind2 '!' ' ' ((s.drop start).take (min (start + chunk_size) s.length - start))))
      (rfind2 '?' ' ' ((s.drop start).take (min (start + chunk_size) s.length - start)))
      with hbp
    by_cases hcut : (chunk_size : Int) < 2 * bp
    · rw [if_pos hcut]
      dsimp only
      constructor
      · intro _
        omega
      · omega
    · rw [if_neg hcut]
      dsimp only
      constructor
      · intro _
        omega
      · omega
  · rw [if_neg hend]
    dsimp only
    constructor
    · intro hc
      exact absurd hc hend
    · omega

theorem nextStart_progress (s : List Char) (chunk_size chunk_overlap : Nat)
    (hsz : 0 < chunk_size) (hov : 2 * chunk_overlap ≤ chunk_size) (start : Nat)
    (hstart : start < s.length) :
    start < nextStart s chunk_size chunk_overlap start := by
  have h := chunkBody_progress s chunk_size chunk_overlap hsz hov start hstart
  rw [nextStart]
  by_cases hs1 : (chunkBody s chunk_size start).2 < s.length
  · rw [if_pos hs1]
    have := h.1 hs1
    omega
  · rw [if_neg hs1]
    exact h.2

theorem chunkLoop_sufficient (s pid : List Char) (chunk_size chunk_overlap : Nat)
    (hsz : 0 < chunk_size) (hov : 2 * chunk_overlap ≤ chunk_size) :
    ∀ (fuel start idx : Nat) (acc : List Chunk), s.length ≤ start + fuel →
      ∃ out, chunkLoop s pid chunk_size chunk_overlap fuel start idx acc = some out := by
  intro fuel
  induction fuel with
  | zero =>
    intro start idx acc hle
    rw [chunkLoop, if_pos (by omega)]
    exact ⟨acc.reverse, rfl⟩
  | succ fuel ih =>
    intro start idx acc hle
    rw [chunkLoop]
    by_cases hstart : s.length ≤ start
    · rw [if_pos hstart]
      exact ⟨acc.reverse, rfl⟩
    · rw [if_neg hstart]
      dsimp only
      apply ih
      have := nextStart_progress s chunk_size chunk_overlap hsz hov start (by omega)
      omega

/-- C4 amended: for every input text and all positive `max_size` and `overlap`
with `2 * overlap ≤ max_size`, the `chunk_text` loop terminates and returns a
finite chunk sequence.  (The claim's weaker proviso `overlap < max_size` does
not suffice: see the counterexample with `overlap = 7`, `max_size = 10`.) -/
theorem c4_amended_chunk_terminates (text paper_id : List Char)
    (chunk_size chunk_overlap : Nat) (hsz : 0 < chunk_size)
    (_hov0 : 0 < chunk_overlap) (hov : 2 * chunk_overlap ≤ chunk_size) :
    chunkTerminates text paper_id chunk_size chunk_overlap ∧
      ∃ out, chunk_text text paper_id chunk_size chunk_overlap = some out := by
  by_cases hstrip : stripStr text = []
  · refine ⟨⟨0, [], ?_⟩, ⟨[], ?_⟩⟩
    · rw [chunk_textF, if_pos hstrip]
    · rw [chunk_text, chunk_textF, if_pos hstrip]
  · obtain ⟨out, hout⟩ := chunkLoop_sufficient (cleanText text) paper_id _ _ hsz hov
      ((cleanText text).length + 1) 0 0 [] (by omega)
    refine ⟨⟨(cleanText text).length + 1, out, ?_⟩, ⟨out, ?_⟩⟩
    · rw [chunk_textF, if_neg hstrip]
      exact hout
    · rw [chunk_text, chunk_textF, if_neg hstrip]
      exact hout

/-- Witness for the amended C4 theorem at a concrete input. -/
theorem c4_amended_chunk_terminates_witness :
    0 < (10 : Nat) ∧ 0 < (2 : Nat) ∧ 2 * 2 ≤ (10 : Nat) ∧
      (chunkTerminates "hello. world".data "doc".data 10 2 ∧
        ∃ out, chunk_text "hello. world".data "doc".data 10 2 = some out) :=
  ⟨by norm_num, by norm_num, by norm_num,
    c4_amended_chunk_terminates "hello. world".data "doc".data 10 2 (by norm_num)
      (by norm_num) (by norm_num)⟩

theorem ite_add_split {P : Prop} [Decidable P] (s w : ℝ) :
    (if P then s + w else s) = s + if P then w else 0 := by
  split <;> simp

theorem ite_ite_add_split {P Q : Prop} [Decidable P] [Decidable Q] (s w1 w2 : ℝ) :
    (if P then s + w1 else if Q then s + w2 else s)
      = s + if P then w1 else if Q then w2 else 0 := by
  split
  · simp
  · split <;> simp

/-- `calculate_quality_score` linearised as the sum of its seven step
contributions, capped at 1. -/
theorem calculate_quality_score_eq (m : PaperMetadata) (currentYear : Int) :
    calculate_quality_score m currentYear =
      min 1.0 (0 + citationTerm m + recencyTerm m currentYear + pdfTerm m
        + sourceTerm m + abstractTerm m + authorTerm m + titleTerm m) := by
  rw [calculate_quality_score, citationTerm, recencyTerm, pdfTerm, sourceTerm,
    abstractTerm, authorTerm, titleTerm]
  rcases hY : m.year with _ | y
  · dsimp only
    rw [ite_add_split, ite_add_split, ite_add_split, ite_ite_add_split, ite_add_split,
      ite_add_split]
    ring_nf
  · dsimp only
    rw [ite_add_split, ite_add_split, ite_add_split, ite_ite_add_split, ite_add_split,
      ite_add_split, ite_add_split]

theorem citationTerm_bounds (m : PaperMetadata) :
    0 ≤ citationTerm m ∧ citationTerm m ≤ 0.3 := by
  rw [citationTerm]
  split
  · constructor
    · apply mul_nonneg _ (by norm_num)
      apply le_min (by norm_num)
      apply div_nonneg
      · apply Real.log_nonneg
        have := Nat.cast_nonneg (α := ℝ) (m.citation_count.getD 0)
        linarith
      · exact Real.log_nonneg (by norm_num)
    · have h := min_le_left 1.0
        (Real.log (1 + (m.citation_count.getD 0 : ℝ)) / Real.log 1000)
      nlinarith
  · norm_num

theorem recencyTerm_bounds (m : PaperMetadata) (cy : Int) :
    0 ≤ recencyTerm m cy ∧ recencyTerm m cy ≤ 0.2 := by
  rw [recencyTerm]
  rcases m.year with _ | y
  · norm_num
  · dsimp only
    split
    · split_ifs with h1 h2 h3
      · norm_num
      · norm_num
      · norm_num
      · have h10 : (10 : ℝ) < ((cy - y : Int) : ℝ) := by
          exact_mod_cast (by omega : (10 : Int) < cy - y)
        have hmax1 : max 0.3 (1.0 - ((cy - y : Int) : ℝ) / 50) ≤ 1 := by
          apply max_le (by norm_num)
          linarith
        have hmax0 : (0 : ℝ) ≤ max 0.3 (1.0 - ((cy - y : Int) : ℝ) / 50) :=
          le_trans (by norm_num) (le_max_left _ _)
        constructor
        · nlinarith
        · nlinarith
    · norm_num

theorem pdfTerm_bounds (m : PaperMetadata) : 0 ≤ pdfTerm m ∧ pdfTerm m ≤ 0.15 := by
  rw [pdfTerm]; split <;> norm_num

theorem sourceTerm_bounds (m : PaperMetadata) : 0 ≤ sourceTerm m ∧ sourceTerm m ≤ 0.1 := by
  rw [sourceTerm]; split_ifs <;> norm_num

theorem abstractTerm_bounds (m : PaperMetadata) :
    0 ≤ abstractTerm m ∧ abstractTerm m ≤ 0.1 := by
  rw [abstractTerm]; split <;> norm_num

theorem authorTerm_bounds (m : PaperMetadata) :
    0 ≤ authorTerm m ∧ authorTerm m ≤ 0.05 := by
  rw [authorTerm]; split <;> norm_num

theorem titleTerm_bounds (m : PaperMetadata) :
    0 ≤ titleTerm m ∧ titleTerm m ≤ 0.05 := by
  rw [titleTerm]; split <;> norm_num

theorem qualitySum_nonneg (m : PaperMetadata) (cy : Int) :
    0 ≤ 0 + citationTerm m + recencyTerm m cy + pdfTerm m + sourceTerm m
      + abstractTerm m + authorTerm m + titleTerm m := by
  have h1 := citationTerm_bounds m
  have h2 := recencyTerm_bounds m cy
  have h3 := pdfTerm_bounds m
  have h4 := sourceTerm_bounds m
  have h5 := abstractTerm_bounds m
  have h6 := authorTerm_bounds m
  have h7 := titleTerm_bounds m
  linarith [h1.1, h2.1, h3.1, h4.1, h5.1, h6.1, h7.1]

theorem calculate_quality_score_bounds (m : PaperMetadata) (currentYear : Int) :
    0 ≤ calculate_quality_score m currentYear ∧
      calculate_quality_score m currentYear ≤ 1 := by
  rw [calculate_quality_score_eq]
  constructor
  · exact le_min (by norm_num) (qualitySum_nonneg m currentYear)
  · exact le_trans (min_le_left _ _) (by norm_num)

theorem simple_keyword_match_bounds (query text : List Char) :
    0 ≤ simple_keyword_match query text ∧ simple_keyword_match query text ≤ 1 := by
  rw [simple_keyword_match]
  split
  · norm_num
  · dsimp only
    split
    · norm_num
    · split
      · norm_num
      · constructor
        · exact le_min (by norm_num) (by positivity)
        · exact le_trans (min_le_left _ _) (by norm_num)

theorem ite_or_split {P Q : Prop} [Decidable P] [Decidable Q] (w : ℝ) :
    (if P ∨ Q then w else 0) = if P then w else if Q then w else 0 := by
  by_cases hP : P
  · simp [hP]
  · by_cases hQ : Q <;> simp [hP, hQ]

theorem abstract_cond_split (m : PaperMetadata) (w : ℝ) :
    (if 200 < m.abstract.length then w else 0)
      = if m.abstract ≠ [] ∧ 200 < m.abstract.length then w else 0 := by
  by_cases h : 200 < m.abstract.length
  · have hne : m.abstract ≠ [] := by
      intro hc
      rw [hc] at h
      simp at h
    rw [if_pos h, if_pos ⟨hne, h⟩]
  · rw [if_neg h, if_neg fun hc => h hc.2]

theorem clamp_eq_min (x : ℝ) (hx : 0 ≤ x) : max 0 (min 1 x) = min 1.0 x := by
  rw [show (1.0 : ℝ) = 1 from by norm_num, max_eq_right (le_min zero_le_one hx)]

/-- The amended spec formula, linearised over the same step contributions as
the code. -/
theorem quality_score_spec_amended_eq (m : PaperMetadata) (cy : Int) :
    quality_score_spec_amended m cy =
      max 0 (min 1 (0 + citationTerm m + recencyTerm m cy + pdfTerm m + sourceTerm m
        + abstractTerm m + authorTerm m + titleTerm m)) := by
  rw [quality_score_spec_amended, citationTerm, recencyTerm, pdfTerm, sourceTerm,
    abstractTerm, authorTerm, titleTerm]
  rcases hY : m.year with _ | y <;> rcases hC : m.citation_count with _ | c <;> dsimp only
  all_goals
    congr 1
    congr 1
    rw [ite_or_split, abstract_cond_split]
    simp only [mul_ite, ite_mul, mul_zero, zero_mul, mul_one, one_mul,
      Option.getD_none, Option.getD_some]
  · simp only [Nat.lt_irrefl, if_false]
    ring_nf
  · rcases Nat.eq_zero_or_pos c with rfl | hc
    · simp
    · simp only [hc, hc.ne', if_true, if_false]
      ring_nf
  · by_cases hy : y = 0
    · simp [hy]
    · simp only [hy, ne_eq, not_false_iff, if_true, if_false, Nat.lt_irrefl]
      ring_nf
  · rcases Nat.eq_zero_or_pos c with rfl | hc <;> by_cases hy : y = 0
    · simp [hy]
    · simp only [hy, ne_eq, not_false_iff, if_true, if_false, Nat.lt_irrefl]
      ring_nf
    · simp [hy, hc, hc.ne']
      ring_nf
    · simp only [hc, hc.ne', hy, ne_eq, not_false_iff, if_true, if_false]
      ring_nf

/-- C6 amended: `calculate_quality_score` equals the §4.3 weighted-sum formula
with the recency sub-score zero when the year is absent **or zero** (Python
truthiness), clamped to `[0,1]`. -/
theorem c6_amended_quality_formula (m : PaperMetadata) (currentYear : Int) :
    calculate_quality_score m currentYear = quality_score_spec_amended m currentYear := by
  rw [calculate_quality_score_eq, quality_score_spec_amended_eq,
    clamp_eq_min _ (qualitySum_nonneg m currentYear)]

/-- C6 counterexample: on a record with `year = 0` the code's recency
contribution is 0 (Python `if year:` is falsy at 0) while the claim's formula,
which gives 0 only for an absent year, yields `0.2 · 0.3 = 0.06`. -/
theorem c6_counterexample :
    calculate_quality_score c6meta 2026 ≠ quality_score_spec c6meta 2026 := by
  have hcode : calculate_quality_score c6meta 2026 = 0 := by
    rw [calculate_quality_score_eq]
    rw [show citationTerm c6meta = 0 from by
      rw [citationTerm]; simp [c6meta]]
    rw [show recencyTerm c6meta 2026 = 0 from by
      rw [recencyTerm]; simp [c6meta]]
    rw [show pdfTerm c6meta = 0 from by rw [pdfTerm]; simp [c6meta]]
    rw [show sourceTerm c6meta = 0 from by rw [sourceTerm]; simp [c6meta]]
    rw [show abstractTerm c6meta = 0 from by rw [abstractTerm]; simp [c6meta]]
    rw [show authorTerm c6meta = 0 from by rw [authorTerm]; simp [c6meta]]
    rw [show titleTerm c6meta = 0 from by
      rw [titleTerm]; simp [c6meta, splitWS]]
    norm_num
  have hspec : quality_score_spec c6meta 2026 = 0.06 := by
    rw [quality_score_spec]
    simp only [c6meta]
    norm_num [splitWS]
    rw [if_neg (by simp), add_zero, min_eq_right (by norm_num),
      max_eq_right (by norm_num)]
  rw [hcode, hspec]
  norm_num

theorem combinedScore_eq_of_ne (sw kw sem key : ℝ) (h : sw + kw ≠ 0) :
    combinedScore sw kw sem key = (sw * sem + kw * key) / (sw + kw) := by
  rw [combinedScore, combineWeights]
  rw [if_neg h]
  dsimp only
  field_simp

theorem combinedScore_zero_weights (sem key : ℝ) : combinedScore 0 0 sem key = sem := by
  rw [combinedScore, combineWeights]
  norm_num

theorem combinedScore_bounds (sw kw sem key : ℝ) (hsw : 0 ≤ sw) (hkw : 0 ≤ kw)
    (hsem : 0 ≤ sem ∧ sem ≤ 1) (hkey : 0 ≤ key ∧ key ≤ 1) :
    0 ≤ combinedScore sw kw sem key ∧ combinedScore sw kw sem key ≤ 1 := by
  by_cases h : sw + kw = 0
  · have hsw0 : sw = 0 := by linarith
    have hkw0 : kw = 0 := by linarith
    rw [hsw0, hkw0, combinedScore_zero_weights]
    exact hsem
  · rw [combinedScore_eq_of_ne sw kw sem key h]
    have hpos : 0 < sw + kw := lt_of_le_of_ne (by linarith) (Ne.symm h)
    constructor
    · apply div_nonneg _ (le_of_lt hpos)
      have := mul_nonneg hsw hsem.1
      have := mul_nonneg hkw hkey.1
      linarith
    · rw [div_le_one hpos]
      nlinarith [hsem.2, hkey.2]

theorem rerankPass_score_bounds (pm : List Char → Option PaperMetadata) (cy : Int) :
    ∀ (l : List QueryResult) (seen : List (List Char)),
      (∀ x ∈ l, 0 ≤ x.score ∧ x.score ≤ 1) →
      ∀ r ∈ rerankPass pm cy 0.1 l seen, 0 ≤ r.score ∧ r.score ≤ 1 := by
  intro l
  induction l with
  | nil =>
    intro seen _ r hr
    simp [rerankPass] at hr
  | cons x rest ih =>
    intro seen h r hr
    rw [rerankPass] at hr
    dsimp only at hr
    rcases List.mem_cons.mp hr with rfl | hr
    · dsimp only
      have hq := calculate_quality_score_bounds ((pm x.paper_id).getD emptyMetadata) cy
      have hx := h x (List.mem_cons_self _ _)
      constructor
      · have hb : (0 : ℝ) ≤ if x.paper_id ∈ seen then 0 else 0.1 := by split <;> norm_num
        linarith [hx.1, hq.1]
      · have hb : (if x.paper_id ∈ seen then (0 : ℝ) else 0.1) ≤ 0.1 := by
          split <;> norm_num
        linarith [hx.2, hq.2]
    · exact ih _ (fun y hy => h y (List.mem_cons_of_mem _ hy)) r hr

/-- C2: for all valid inputs — raw semantic score in `[0,1]`, non-negative
weights, and the default `diversity_weight` of `0.1` — each of
`keyword_score`, `quality_score`, `combined_score` and `final_score` lies in
`[0,1]`. -/
theorem c2_score_bounds (query text : List Char) (m : PaperMetadata) (currentYear : Int)
    (sem semantic_weight keyword_weight : ℝ)
    (results : List QueryResult) (pm : List Char → Option PaperMetadata)
    (hsem : 0 ≤ sem ∧ sem ≤ 1) (hsw : 0 ≤ semantic_weight) (hkw : 0 ≤ keyword_weight)
    (hres : ∀ x ∈ results, 0 ≤ x.score ∧ x.score ≤ 1) :
    (0 ≤ simple_keyword_match query text ∧ simple_keyword_match query text ≤ 1)
    ∧ (0 ≤ calculate_quality_score m currentYear
        ∧ calculate_quality_score m currentYear ≤ 1)
    ∧ (0 ≤ combinedScore semantic_weight keyword_weight sem
          (simple_keyword_match query text)
        ∧ combinedScore semantic_weight keyword_weight sem
          (simple_keyword_match query text) ≤ 1)
    ∧ (∀ r ∈ rerank_results results pm currentYear 0.1,
        0 ≤ r.score ∧ r.score ≤ 1) := by
  refine ⟨simple_keyword_match_bounds query text,
    calculate_quality_score_bounds m currentYear,
    combinedScore_bounds _ _ _ _ hsw hkw hsem (simple_keyword_match_bounds query text),
    ?_⟩
  intro r hr
  rw [rerank_results] at hr
  split at hr
  · next hempty =>
    rw [List.isEmpty_iff.mp hempty] at hr
    simp at hr
  · rw [sortByScoreDesc] at hr
    exact rerankPass_score_bounds pm currentYear results [] hres r
      ((List.mem_insertionSort _).mp hr)

/-- Witness for C2 at concrete inputs. -/
theorem c2_score_bounds_witness :
    (0 ≤ (1 / 2 : ℝ) ∧ (1 / 2 : ℝ) ≤ 1) ∧ 0 ≤ (1 : ℝ) ∧
      ((0 ≤ simple_keyword_match "a".data "b".data
          ∧ simple_keyword_match "a".data "b".data ≤ 1)
        ∧ (0 ≤ calculate_quality_score emptyMetadata 2026
            ∧ calculate_quality_score emptyMetadata 2026 ≤ 1)
        ∧ (0 ≤ combinedScore 1 1 (1 / 2) (simple_keyword_match "a".data "b".data)
            ∧ combinedScore 1 1 (1 / 2) (simple_keyword_match "a".data "b".data) ≤ 1)
        ∧ (∀ r ∈ rerank_results [] (fun _ => none) 2026 0.1,
            0 ≤ r.score ∧ r.score ≤ 1)) :=
  ⟨by norm_num, by norm_num,
    c2_score_bounds "a".data "b".data emptyMetadata 2026 (1 / 2) 1 1 [] (fun _ => none)
      (by norm_num) (by norm_num) (by norm_num) (by simp)⟩

theorem skm_hello :
    simple_keyword_match "hello world".data "hello world".data = 1 := by
  have hcard : (tokensOf "hello world".data).card = 2 := by decide
  rw [simple_keyword_match, if_neg (by decide)]
  dsimp only
  rw [Finset.inter_self, Finset.union_self]
  rw [if_neg fun he => by rw [he] at hcard; exact absurd hcard (by norm_num)]
  rw [if_neg fun he => by rw [he] at hcard; exact absurd hcard (by norm_num)]
  rw [hcard]
  norm_num

/-- C5 counterexample: `c5r` has the maximum semantic score among the
candidates (it is the only one) and the weights are admissible, yet raising
`semantic_weight` from 1 to 3 with `keyword_weight` fixed at 1 strictly
decreases its combined score, because its keyword score (1) exceeds its
semantic score (1/2). -/
theorem c5_counterexample :
    c5r ∈ [c5r] ∧ (∀ y ∈ [c5r], y.score ≤ c5r.score) ∧
      0 ≤ (1 : ℝ) ∧ (1 : ℝ) ≤ 3 ∧ 0 ≤ (1 : ℝ) ∧
      combinedScore 3 1 c5r.score (simple_keyword_match "hello world".data c5r.text)
        < combinedScore 1 1 c5r.score
            (simple_keyword_match "hello world".data c5r.text) := by
  refine ⟨List.mem_cons_self _ _, ?_, by norm_num, by norm_num, by norm_num, ?_⟩
  · intro y hy
    rcases List.mem_cons.mp hy with rfl | hy
    · exact le_refl _
    · simp at hy
  · have ht : c5r.text = "hello world".data := rfl
    have hs : c5r.score = 1 / 2 := rfl
    rw [ht, skm_hello, hs]
    rw [combinedScore_eq_of_ne _ _ _ _ (by norm_num),
      combinedScore_eq_of_ne _ _ _ _ (by norm_num)]
    norm_num

/-- C5 amended: increasing `semantic_weight` while holding the keyword score
fixed never decreases `combined_score` for a candidate whose semantic score is
at least its own keyword score (the max-among-candidates condition of the
original claim does not ensure this). -/
theorem c5_amended_combiner_monotone (query text : List Char) (sem sw sw' kw : ℝ)
    (hkey : simple_keyword_match query text ≤ sem)
    (h0 : 0 ≤ sw) (h1 : sw ≤ sw') (hkw : 0 ≤ kw) :
    combinedScore sw kw sem (simple_keyword_match query text)
      ≤ combinedScore sw' kw sem (simple_keyword_match query text) := by
  by_cases hz : sw + kw = 0
  · have hsw0 : sw = 0 := by linarith
    have hkw0 : kw = 0 := by linarith
    rw [hsw0, hkw0, combinedScore_zero_weights]
    by_cases hz' : sw' = 0
    · rw [hz', combinedScore_zero_weights]
    · rw [combinedScore_eq_of_ne _ _ _ _ (by simpa using hz'),
        zero_mul, add_zero, add_zero, mul_comm, mul_div_assoc, div_self hz', mul_one]
  · have hpos : 0 < sw + kw := lt_of_le_of_ne (by linarith) (Ne.symm hz)
    have hpos' : 0 < sw' + kw := by linarith
    rw [combinedScore_eq_of_ne _ _ _ _ hz,
      combinedScore_eq_of_ne _ _ _ _ (ne_of_gt hpos')]
    rw [div_le_div_iff₀ hpos hpos']
    nlinarith [mul_nonneg (mul_nonneg hkw (sub_nonneg.2 h1)) (sub_nonneg.2 hkey)]

/-- Witness for the amended C5 theorem at concrete inputs. -/
theorem c5_amended_combiner_monotone_witness :
    simple_keyword_match "hello world".data "hello world".data ≤ 1 ∧
      0 ≤ (1 : ℝ) ∧ (1 : ℝ) ≤ 3 ∧ 0 ≤ (1 : ℝ) ∧
      combinedScore 1 1 1 (simple_keyword_match "hello world".data "hello world".data)
        ≤ combinedScore 3 1 1
            (simple_keyword_match "hello world".data "hello world".data) :=
  ⟨by rw [skm_hello], by norm_num, by norm_num, by norm_num,
    c5_amended_combiner_monotone "hello world".data "hello world".data 1 1 3 1
      (by rw [skm_hello]) (by norm_num) (by norm_num) (by norm_num)⟩

theorem dictLookup_insert_self (k : List Char) (v : ℝ) (m : List (List Char × ℝ)) :
    dictLookup k (dictInsert k v m) = some v := by
  induction m with
  | nil => simp [dictInsert, dictLookup]
  | cons p rest ih =>
    rcases p with ⟨k', v'⟩
    rw [dictInsert]
    by_cases h : k' = k
    · rw [if_pos h, dictLookup, if_pos rfl]
    · rw [if_neg h, dictLookup, if_neg h, ih]

theorem dictLookup_insert_other (k k0 : List Char) (hne : k0 ≠ k) (v : ℝ)
    (m : List (List Char × ℝ)) :
    dictLookup k (dictInsert k0 v m) = dictLookup k m := by
  induction m with
  | nil => simp [dictInsert, dictLookup, hne]
  | cons p rest ih =>
    rcases p with ⟨k', v'⟩
    rw [dictInsert]
    by_cases h : k' = k0
    · rw [if_pos h, dictLookup, if_neg hne, dictLookup, if_neg fun hc => hne (h ▸ hc)]
    · rw [if_neg h, dictLookup, dictLookup]
      by_cases h2 : k' = k
      · rw [if_pos h2, if_pos h2]
      · rw [if_neg h2, if_neg h2, ih]

theorem combineWeights_zero : combineWeights 0 0 = (1.0, 0.0, true) := by
  rw [combineWeights]
  norm_num

/-- C7: with `semantic_weight = 0` and `keyword_weight = 0` the hybrid
combiner does not fail: it falls back to semantic-only weights `(1, 0)`,
recording the fallback as a diagnostic (the `true` flag, which models the
`logger.warning` call), and every returned candidate's combined score — its
`score` — equals the raw semantic score recorded in its metadata. -/
theorem c7_zero_weight_fallback (query : List Char) (results : List QueryResult)
    (top_k : Nat) :
    combineWeights 0 0 = (1.0, 0.0, true) ∧
      ∀ r ∈ hybrid_search query results top_k 0 0,
        dictLookup "semantic_score".data r.metadata = some r.score := by
  refine ⟨combineWeights_zero, ?_⟩
  intro r hr
  rw [hybrid_search, combineWeights_zero] at hr
  dsimp only at hr
  have hr2 : r ∈ List.map (mkHybridResult 1.0 0.0 query) results := by
    have := List.mem_of_mem_take hr
    rw [sortByScoreDesc] at this
    exact (List.mem_insertionSort _).mp this
  obtain ⟨x, hx, rfl⟩ := List.mem_map.mp hr2
  rw [mkHybridResult]
  dsimp only
  rw [dictLookup_insert_other _ _ (by decide), dictLookup_insert_other _ _ (by decide),
    dictLookup_insert_self]
  norm_num

/-- Witness for C7 at a concrete input. -/
theorem c7_zero_weight_fallback_witness :
    mkHybridResult 1.0 0.0 [] c7r ∈ hybrid_search [] [c7r] 1 0 0 ∧
      dictLookup "semantic_score".data (mkHybridResult 1.0 0.0 [] c7r).metadata
        = some (mkHybridResult 1.0 0.0 [] c7r).score := by
  have hmem : mkHybridResult 1.0 0.0 [] c7r ∈ hybrid_search [] [c7r] 1 0 0 := by
    rw [hybrid_search, combineWeights_zero]
    dsimp only
    rw [sortByScoreDesc]
    simp [List.insertionSort, List.orderedInsert]
  exact ⟨hmem, (c7_zero_weight_fallback [] [c7r] 1).2 _ hmem⟩

theorem rerankPass_map_core (pm : List Char → Option PaperMetadata) (cy : Int)
    (dw : ℝ) :
    ∀ (l : List QueryResult) (seen : List (List Char)),
      (rerankPass pm cy dw l seen).map coreFields = l.map coreFields := by
  intro l
  induction l with
  | nil => intro seen; simp [rerankPass]
  | cons x rest ih =>
    intro seen
    rw [rerankPass]
    dsimp only
    rw [List.map_cons, List.map_cons, ih]
    rfl

/-- C10: `rerank_results` returns a list of the same length whose elements are
a permutation of the input candidates with only the score (and score
metadata) rewritten: the multiset of `(chunk_id, paper_id, chunk_index,
text)` tuples is preserved. -/
theorem c10_rerank_frame (results : List QueryResult)
    (pm : List Char → Option PaperMetadata) (currentYear : Int)
    (diversity_weight : ℝ) :
    (rerank_results results pm currentYear diversity_weight).length = results.length ∧
      ((rerank_results results pm currentYear diversity_weight).map coreFields).Perm
        (results.map coreFields) := by
  rw [rerank_results]
  split
  · exact ⟨rfl, List.Perm.refl _⟩
  · constructor
    · rw [sortByScoreDesc, List.length_insertionSort]
      have h := congrArg List.length
        (rerankPass_map_core pm currentYear diversity_weight results [])
      simpa using h
    · rw [sortByScoreDesc]
      refine ((List.perm_insertionSort _ _).map coreFields).trans ?_
      rw [rerankPass_map_core]

theorem lowerStr_idem (s : List Char) : lowerStr (lowerStr s) = lowerStr s := by
  simp only [lowerStr, List.map_map]
  exact List.map_congr_left fun c _ => lowerChar_idem c

theorem splitWS_map_lower (s : List Char) :
    splitWS (lowerStr s) = (splitWS s).map lowerStr := by
  suffices H : ∀ n (s : List Char), s.length ≤ n →
      splitWS (lowerStr s) = (splitWS s).map lowerStr from H s.length s le_rfl
  intro n
  induction n with
  | zero =>
    intro s hs
    have : s = [] := List.length_eq_zero.mp (Nat.le_zero.mp hs)
    subst this
    simp [splitWS, lowerStr]
  | succ n ih =>
    intro s hs
    match s with
    | [] => simp [splitWS, lowerStr]
    | c :: t =>
      rw [show lowerStr (c :: t) = lowerChar c :: lowerStr t from rfl]
      by_cases hc : isWS c = true
      · rw [splitWS_cons_ws (by rw [isWS_lowerChar]; exact hc), splitWS_cons_ws hc]
        exact ih t (by simpa using Nat.le_of_succ_le_succ hs)
      · rw [Bool.not_eq_true] at hc
        rw [splitWS_cons_not_ws (show isWS (lowerChar c) = false from by
            rw [isWS_lowerChar]; exact hc),
          splitWS_cons_not_ws hc]
        rw [show lowerStr t = t.map lowerChar from rfl]
        rw [List.takeWhile_map, List.dropWhile_map]
        have hpred : ((fun d => !isWS d) ∘ lowerChar) = fun d => !isWS d := by
          funext d
          simp [Function.comp, isWS_lowerChar]
        rw [hpred]
        have hlen : (t.dropWhile fun d => !isWS d).length ≤ n := by
          have h1 : (t.dropWhile fun d => !isWS d).length ≤ t.length :=
            (List.dropWhile_sublist _).length_le
          have h2 : t.length ≤ n := by simpa using Nat.le_of_succ_le_succ hs
          omega
        rw [show (t.dropWhile fun d => !isWS d).map lowerChar
              = lowerStr (t.dropWhile fun d => !isWS d) from rfl,
          ih _ hlen]
        rfl

theorem acronym_word_props (w : List Char) (hne : w ≠ [])
    (hws : ∀ c ∈ w, isWS c = false) :
    (splitWS (acronymExpand (lowerStr w))).map (fun u => acronymExpand (lowerStr u))
        = splitWS (acronymExpand (lowerStr w))
      ∧ splitWS (acronymExpand (lowerStr w)) ≠ []
      ∧ joinSp (splitWS (acronymExpand (lowerStr w))) = acronymExpand (lowerStr w) := by
  have hlne : lowerStr w ≠ [] := by
    intro hc
    exact hne (List.map_eq_nil_iff.mp hc)
  have hlws : ∀ c ∈ lowerStr w, isWS c = false := by
    intro c hc
    obtain ⟨d, hd, rfl⟩ := List.mem_map.mp hc
    rw [isWS_lowerChar]
    exact hws d hd
  by_cases h1 : lowerStr w = "nlp".data
  · rw [show acronymExpand (lowerStr w) = "natural language processing".data from by
      rw [h1]; decide]
    exact ⟨by decide, by decide, by decide⟩
  · by_cases h2 : lowerStr w = "ml".data
    · rw [show acronymExpand (lowerStr w) = "machine learning".data from by
        rw [h2]; decide]
      exact ⟨by decide, by decide, by decide⟩
    · by_cases h3 : lowerStr w = "dl".data
      · rw [show acronymExpand (lowerStr w) = "deep learning".data from by
          rw [h3]; decide]
        exact ⟨by decide, by decide, by decide⟩
      · by_cases h4 : lowerStr w = "ai".data
        · rw [show acronymExpand (lowerStr w) = "artificial intelligence".data from by
            rw [h4]; decide]
          exact ⟨by decide, by decide, by decide⟩
        · by_cases h5 : lowerStr w = "cv".data
          · rw [show acronymExpand (lowerStr w) = "computer vision".data from by
              rw [h5]; decide]
            exact ⟨by decide, by decide, by decide⟩
          · have hAE : acronymExpand (lowerStr w) = lowerStr w := by
              rw [acronymExpand, if_neg h1, if_neg h2, if_neg h3, if_neg h4, if_neg h5]
            rw [hAE, splitWS_single_word (lowerStr w) hlne hlws]
            refine ⟨?_, by simp, rfl⟩
            rw [List.map_singleton, lowerStr_idem, hAE]

/-- `normalize_query` in normal form: split the query into words, lowercase
and acronym-expand each word, and rejoin. -/
theorem normalize_query_eq (q : List Char) :
    normalize_query q
      = joinSp ((splitWS q).map fun w => acronymExpand (lowerStr w)) := by
  rw [normalize_query]
  rw [splitWS_map_lower, splitWS_joinSp_splitWS, List.map_map]
  rfl

/-- C8: `normalize_query` is idempotent — whitespace collapsing, lowercasing
and whole-token acronym expansion reach a fixed point after one
application. -/
theorem c8_normalize_query_idempotent (q : List Char) :
    normalize_query (normalize_query q) = normalize_query q := by
  rw [normalize_query_eq q, normalize_query_eq, splitWS_joinSp_flat, List.map_flatten,
    List.map_map, List.map_map]
  have hmap : (splitWS q).map
        (((List.map fun w => acronymExpand (lowerStr w)) ∘ splitWS) ∘
          fun w => acronymExpand (lowerStr w))
      = (splitWS q).map (splitWS ∘ fun w => acronymExpand (lowerStr w)) := by
    apply List.map_congr_left
    intro w hw
    obtain ⟨hne, hws⟩ := splitWS_words q w hw
    exact (acronym_word_props w hne hws).1
  rw [hmap]
  rw [show (splitWS q).map (splitWS ∘ fun w => acronymExpand (lowerStr w))
        = (((splitWS q).map fun w => acronymExpand (lowerStr w)).map splitWS) from by
      rw [List.map_map]]
  apply joinSp_flat_norm
  intro x hx
  obtain ⟨w, hw, rfl⟩ := List.mem_map.mp hx
  obtain ⟨hne, hws⟩ := splitWS_words q w hw
  exact ⟨(acronym_word_props w hne hws).2.1, (acronym_word_props w hne hws).2.2⟩

end ScholarX
